import Mathlib

/-!
# dalga: the job table, the publisher loop and the job manager

A shallow embedding of `src/dalga.go` (package main: the MySQL job table, the
HTTP handlers, `Job.Publish` and the `publisher` loop) and of
`src/dalga/jobmanager.go` (the `JobManager` facade), followed by the theorems
about them.

Conventions of the embedding.

* `time.Time` is an integer number of nanoseconds since the epoch (UTC) and
  `time.Duration` is an integer number of nanoseconds, as in Go (int64).
* The MySQL table is the list of its rows, in insertion order.  A statement
  run through `db.Exec` is a function on that list; whether the store or the
  broker fails is decided by the environment (`Env`).
* The publisher goroutine is a state machine: its program counter `PC`
  records the label it stands at and the job variable it carries.
-/

namespace DalgaMain

/-! ## Time -/

/-- Go `time.Duration`: a signed 64-bit count of nanoseconds. -/
abbrev Duration := Int

/-- Go `time.Time` in UTC, as nanoseconds since the epoch. -/
abbrev Time := Int

/-- Go `time.Second`. -/
def Second : Duration := 1000000000

/-- Two-complement wrap of an integer into the int64 range. -/
def wrapInt64 (x : Int) : Int := (x + 2 ^ 63) % 2 ^ 64 - 2 ^ 63

/-- Go `Duration.Seconds`: `float64(d / Second) + float64(d % Second) / 1e9`.
Every duration this program builds is a whole number of seconds (`NewJob` and
`front` multiply by `time.Second`), for which the fractional summand is zero
and the float is the exact integer `d / Second` (below 2^53 for every int64).
The model returns that integer (Go division truncates toward zero). -/
def Seconds (d : Duration) : Int := Int.tdiv d Second

/-! ## Data model -/

/-- Go `Job` of package main. -/
structure Job where
  RoutingKey : String
  Body : String
  Interval : Duration
  NextRun : Time
deriving DecidableEq, Repr

/-- One row of the MySQL table: `routing_key`, `body`, `interval` (whole
seconds) and `next_run`. -/
structure Row where
  routing_key : String
  body : String
  interval : Int
  next_run : Time
deriving DecidableEq, Repr

/-- The MySQL table named by `cfg.MySQL.Table`. -/
abbrev Table := List Row

/-- The condition `routing_key=? AND body=?`. -/
def Row.hasKey (r : Row) (rk b : String) : Bool :=
  decide (r.routing_key = rk ∧ r.body = b)

/-- Modelled from the spec: the table declaration is not in the source; the
spec gives the primary key as (routing key, body).  This is the statement that
no two rows of the table agree on that pair. -/
def KeysUnique (t : Table) : Prop :=
  t.Pairwise fun r s => ¬ (r.routing_key = s.routing_key ∧ r.body = s.body)

instance (t : Table) : Decidable (KeysUnique t) := by
  unfold KeysUnique
  infer_instance

/-- Errors that travel as Go `error` values. -/
inductive Error where
  | noRows
  | notFound
  | store (msg : String)
  | broker (msg : String)
deriving DecidableEq, Repr

deriving instance DecidableEq for Except

/-- What the environment decides while a piece of code runs: the reading of
`time.Now().UTC()`, whether the statement sent to MySQL fails, and whether the
AMQP channel refuses the message. -/
structure Env where
  now : Time
  dbErr : Option Error
  brokerErr : Option Error
deriving DecidableEq, Repr

/-- An environment at time `now` in which store and broker both work. -/
def Env.fine (now : Time) : Env := ⟨now, none, none⟩

/-! ## The statements sent to MySQL -/

/-- The assignments `next_run=DATE_ADD(next_run, INTERVAL (? - interval) SECOND),
interval=?` of `Job.Enter`, applied to a row if it has the key.  MySQL
evaluates the assignments left to right, so `interval` in the first one is the
old value. -/
def upsertRow (rk b : String) (interval : Int) (r : Row) : Row :=
  if r.hasKey rk b then
    { r with next_run := r.next_run + (interval - r.interval) * Second, interval := interval }
  else r

/-- The statement of `Job.Enter`:
`INSERT INTO t (routing_key, body, interval, next_run) VALUES (?, ?, ?, ?)
 ON DUPLICATE KEY UPDATE
 next_run=DATE_ADD(next_run, INTERVAL (? - interval) SECOND), interval=?`.
With the primary key (routing_key, body) a row of that key is a duplicate and
is updated; when there is none the new row is appended. -/
def upsert (rk b : String) (interval : Int) (nextRun : Time) (t : Table) : Table :=
  if t.any (fun r => r.hasKey rk b) then t.map (upsertRow rk b interval)
  else t ++ [⟨rk, b, interval, nextRun⟩]

/-- The statement of `CancelJob`:
`DELETE FROM t WHERE routing_key=? AND body=?`. -/
def deleteWhere (rk b : String) (t : Table) : Table :=
  t.filter fun r => !r.hasKey rk b

/-- The statement of `Job.Publish`:
`UPDATE t SET next_run=? WHERE routing_key=? AND body=?`. -/
def updateNextRun (nextRun : Time) (rk b : String) (t : Table) : Table :=
  t.map fun r => if r.hasKey rk b then { r with next_run := nextRun } else r

/-- The row picked by `ORDER BY next_run ASC LIMIT 1`: a row of least
`next_run` (among equal ones the model takes the first in table order; MySQL
leaves that choice open). -/
def earliest : Table → Option Row
  | [] => none
  | r :: rs =>
    match earliest rs with
    | none => some r
    | some m => if m.next_run < r.next_run then some m else some r

/-- The `Job` that `front` builds from the scanned row:
`j.Interval = time.Duration(interval) * time.Second`. -/
def Row.toJob (r : Row) : Job :=
  ⟨r.routing_key, r.body, wrapInt64 (r.interval * Second), r.next_run⟩

/-! ## Jobs -/

/-- Go `NewJob`: `Interval = time.Duration(interval) * time.Second` for a
uint32 `interval`, then `SetNewNextRun`, which sets
`NextRun = time.Now().UTC().Add(j.Interval)`. -/
def NewJob (routingKey body : String) (interval : Nat) (now : Time) : Job :=
  let d : Duration := wrapInt64 ((interval : Int) * Second)
  ⟨routingKey, body, d, now + d⟩

/-- Go `Job.Enter`: run the upsert with `j.Interval.Seconds()` as the interval
and `j.NextRun` as the next run; the result is the error of `db.Exec`.  A
failed statement leaves the table as it was. -/
def Job.Enter (j : Job) (env : Env) (t : Table) : Option Error × Table :=
  match env.dbErr with
  | some e => (some e, t)
  | none => (none, upsert j.RoutingKey j.Body (Seconds j.Interval) j.NextRun t)

/-- Go `CancelJob`: run the delete; the result is the error of `db.Exec`
(deleting no row is not an error). -/
def CancelJob (routingKey body : String) (env : Env) (t : Table) : Option Error × Table :=
  match env.dbErr with
  | some e => (some e, t)
  | none => (none, deleteWhere routingKey body t)

/-- Go `Dalga.front`: the first job to be run, or the error of `row.Scan`
(`sql.ErrNoRows` when the table is empty). -/
def front (env : Env) (t : Table) : Except Error Job :=
  match env.dbErr with
  | some e => .error e
  | none =>
    match earliest t with
    | none => .error .noRows
    | some r => .ok r.toJob

/-! ## Publishing -/

/-- The arguments of `channel.Publish`: exchange, routing key and the fields
of `amqp.Publishing` that `Job.Publish` sets. -/
structure Publishing where
  exchange : String
  key : String
  headerInterval : Int
  headerPublishedAt : Time
  ContentType : String
  ContentEncoding : String
  Body : String
  DeliveryMode : Nat
  Priority : Nat
  Expiration : String
deriving DecidableEq, Repr

/-- The publisher label the goroutine of `Dalga.publisher` stands at, with the
value of its `job` variable where one is live. -/
inductive PC where
  /-- Head of the `for` loop, about to call `d.front()`. -/
  | top
  /-- Blocked in `job = <-d.newJobs` after `front` found no rows. -/
  | idle
  /-- At the label `CheckNextRun`. -/
  | checkNextRun (job : Job)
  /-- Blocked in the `select` on the timer, `d.newJobs` and `d.canceledJobs`. -/
  | sleeping (job : Job)
deriving DecidableEq, Repr

/-- The running program: the configured exchange, the table held by MySQL,
the messages the broker has accepted (oldest first) and where the publisher
goroutine stands. -/
structure Dalga where
  exchange : String
  db : Table
  broker : List Publishing
  pc : PC
deriving DecidableEq, Repr

/-- Go `strconv.FormatUint(x, 10)`. -/
def FormatUint (x : Nat) : String := Nat.repr x

/-- The message `Job.Publish` hands to `channel.Publish`.  The conversion
`uint64(j.Interval.Seconds())` truncates the float; `amqp.Persistent` is 2.
The clock is read a second time for the header `published_at`; the model
takes the two readings to be equal. -/
def Job.message (j : Job) (exchange : String) (now : Time) : Publishing :=
  { exchange := exchange
    key := j.RoutingKey
    headerInterval := Seconds j.Interval
    headerPublishedAt := now
    ContentType := "text/plain"
    ContentEncoding := "UTF-8"
    Body := j.Body
    DeliveryMode := 2
    Priority := 0
    Expiration := FormatUint ((Seconds j.Interval).toNat % 2 ^ 64) ++ "000" }

/-- Go `Job.Publish`: first the `UPDATE` that sets `next_run` to
`time.Now().UTC().Add(j.Interval)`, returning its error if it fails; then
`channel.Publish`, returning its error if it fails. -/
def Job.Publish (j : Job) (env : Env) (d : Dalga) : Option Error × Dalga :=
  match env.dbErr with
  | some e => (some e, d)
  | none =>
    let d1 := { d with db := updateNextRun (env.now + j.Interval) j.RoutingKey j.Body d.db }
    match env.brokerErr with
    | some e => (some e, d1)
    | none => (none, { d1 with broker := d1.broker ++ [j.message d.exchange env.now] })

/-! ## The publisher loop -/

/-- The closure `publish` of `Dalga.publisher`: call `j.Publish(d)` and print
the error, if any. -/
def publish (j : Job) (env : Env) (d : Dalga) : Dalga := (j.Publish env d).2

/-- One move of the publisher goroutine from a label at which it is not
blocked.  At `top` it calls `front`: no rows sends it to the receive on
`d.newJobs`, another error is printed and the loop continues, a job takes it
to `CheckNextRun`.  At `CheckNextRun` a job whose `NextRun` is after `now` is
slept on, any other job is published and the loop starts over. -/
def publisherStep (env : Env) (d : Dalga) : Dalga :=
  match d.pc with
  | .top =>
    match front env d.db with
    | .ok job => { d with pc := .checkNextRun job }
    | .error .noRows => { d with pc := .idle }
    | .error _ => d
  | .checkNextRun job =>
    if job.NextRun > env.now then { d with pc := .sleeping job }
    else { publish job env d with pc := .top }
  | .idle => d
  | .sleeping _ => d

/-- The case `<-time.After(remaining)` of the `select`: the job slept on is
published and the loop starts over. -/
def timeAfter (env : Env) (d : Dalga) : Dalga :=
  match d.pc with
  | .sleeping job => { publish job env d with pc := .top }
  | _ => d

/-- The non-blocking send `d.newJobs <- job` of `handleSchedule`, together
with what the receiver does with the value.  The channel is unbuffered, so the
send goes through exactly when the publisher is blocked receiving from it: in
`job = <-d.newJobs`, after which it goes to `CheckNextRun` with the received
job, or in the `select`, where the received job replaces the current one if
its `NextRun` is before and the loop goes to `CheckNextRun` without fetching.
The boolean tells whether the signal was sent. -/
def sendNewJob (newJob : Job) (d : Dalga) : Dalga × Bool :=
  match d.pc with
  | .idle => ({ d with pc := .checkNextRun newJob }, true)
  | .sleeping job =>
    ({ d with pc := .checkNextRun (if newJob.NextRun < job.NextRun then newJob else job) }, true)
  | _ => (d, false)

/-- The non-blocking send `d.canceledJobs <- &Job{RoutingKey, Body}` of
`handleCancel`, together with what the receiver does: if the job slept on has
that routing key and body the loop continues at its head, otherwise it goes
back to `CheckNextRun` with its current job. -/
def sendCanceled (routingKey body : String) (d : Dalga) : Dalga × Bool :=
  match d.pc with
  | .sleeping job =>
    if job.RoutingKey = routingKey ∧ job.Body = body then ({ d with pc := .top }, true)
    else ({ d with pc := .checkNextRun job }, true)
  | _ => (d, false)

/-! ## The HTTP handlers -/

/-- Errors of `strconv.ParseUint`. -/
inductive NumError where
  | invalid
  | range
deriving DecidableEq, Repr

/-- The loop of Go `strconv.ParseUint(s, 10, bitSize)` over the bytes of `s`,
with `n` the value read so far: a byte that is no ASCII digit is a syntax
error (letters are digits of value 10 and more, refused in base 10); `n` at or
above the cutoff `(2^64 - 1) / 10 + 1`, or a sum that wraps or passes
`maxVal = 2^bitSize - 1`, is a range error. -/
def parseUintLoop (maxVal : Nat) : List Char → Nat → Except NumError Nat
  | [], n => .ok n
  | c :: cs, n =>
    if '0' ≤ c ∧ c ≤ '9' then
      let v := c.toNat - '0'.toNat
      if n ≥ (2 ^ 64 - 1) / 10 + 1 then .error .range
      else
        let n10 := n * 10
        let n1 := (n10 + v) % 2 ^ 64
        if n1 < n10 ∨ n1 > maxVal then .error .range
        else parseUintLoop maxVal cs n1
    else .error .invalid

/-- Go `strconv.ParseUint(s, 10, bitSize)`: the empty string is a syntax
error. -/
def ParseUint (s : String) (bitSize : Nat) : Except NumError Nat :=
  if s.data = [] then .error .invalid
  else parseUintLoop (2 ^ bitSize - 1) s.data 0

/-- The three form values `handleSchedule` reads (a missing value reads as the
empty string). -/
structure Request where
  routing_key : String
  body : String
  interval : String
deriving DecidableEq, Repr

/-- How a handler ends: normally, with `http.Error`, or in a panic. -/
inductive Response where
  | ok
  | httpError (msg : String) (code : Nat)
  | panicked (e : Error)
deriving DecidableEq, Repr

/-- Go `handleSchedule`: parse the interval as a base-10 uint32, answer 400 if
that fails or the value is below 1, otherwise build the job, enter it (panic
on error) and try to wake the publisher.  The boolean tells whether the
new-job signal was sent. -/
def handleSchedule (r : Request) (env : Env) (d : Dalga) : Response × Dalga × Bool :=
  match ParseUint r.interval 32 with
  | .error _ => (.httpError "Cannot parse interval" 400, d, false)
  | .ok intervalUint64 =>
    if intervalUint64 < 1 then (.httpError "interval must be >= 1" 400, d, false)
    else
      let job := NewJob r.routing_key r.body (intervalUint64 % 2 ^ 32) env.now
      match job.Enter env d.db with
      | (some e, _) => (.panicked e, d, false)
      | (none, t) =>
        let (d1, sent) := sendNewJob job { d with db := t }
        (.ok, d1, sent)

/-- Go `handleCancel`: delete the row (panic on error), then try to tell the
publisher.  The boolean tells whether the cancel signal was sent. -/
def handleCancel (routingKey body : String) (env : Env) (d : Dalga) : Response × Dalga × Bool :=
  match CancelJob routingKey body env d.db with
  | (some e, _) => (.panicked e, d, false)
  | (none, t) =>
    let (d1, sent) := sendCanceled routingKey body { d with db := t }
    (.ok, d1, sent)

/-! ## Runs of the whole program -/

/-- What can happen next in the running program.  The two statements of a
handler (the store statement, then the send) are separate events, so that a
run may place any move of the publisher between them. -/
inductive Event where
  /-- The publisher moves on from `top` or `CheckNextRun`. -/
  | step (env : Env)
  /-- The timer of the `select` fires. -/
  | timer (env : Env)
  /-- A `/schedule` handler runs `job.Enter(d)`. -/
  | enter (j : Job) (env : Env)
  /-- A `/schedule` handler runs its send on `d.newJobs`. -/
  | newJobSignal (j : Job)
  /-- A `/cancel` handler runs `CancelJob`. -/
  | cancelJob (routingKey body : String) (env : Env)
  /-- A `/cancel` handler runs its send on `d.canceledJobs`. -/
  | canceledSignal (routingKey body : String)
deriving DecidableEq, Repr

/-- The effect of one event. -/
def Dalga.next (d : Dalga) : Event → Dalga
  | .step env => publisherStep env d
  | .timer env => timeAfter env d
  | .enter j env => { d with db := (j.Enter env d.db).2 }
  | .newJobSignal j => (sendNewJob j d).1
  | .cancelJob rk b env => { d with db := (CancelJob rk b env d.db).2 }
  | .canceledSignal rk b => (sendCanceled rk b d).1

/-- The effect of a run of events, oldest first. -/
def Dalga.run (d : Dalga) (es : List Event) : Dalga := es.foldl Dalga.next d

/-- Whether the event brings the key (routing key, body) back: an `Enter` of a
job of that key, or a new-job signal carrying one. -/
def Event.bringsKey (rk b : String) : Event → Bool
  | .enter j _ => decide (j.RoutingKey = rk ∧ j.Body = b)
  | .newJobSignal j => decide (j.RoutingKey = rk ∧ j.Body = b)
  | _ => false

/-- The program as `main` starts it: nothing published, the publisher at the
head of its loop. -/
def Dalga.start (exchange : String) (t : Table) : Dalga := ⟨exchange, t, [], .top⟩

end DalgaMain

/-! ## Package dalga: the job manager

`src/dalga/jobmanager.go` calls `newJob`, the methods `Get`, `Insert` and
`Delete` of `table`, and `WakeUp` of `scheduler`; none of them is among the
source files.  They are modelled from the spec, over the same table type. -/

namespace JobManager

open DalgaMain

/-- Modelled from the spec: the `Job` of package dalga is not in the source.
The spec gives it the key (path, body), an interval, a next run and the
one-off flag. -/
structure Job where
  Path : String
  Body : String
  Interval : Duration
  NextRun : Time
  OneOff : Bool
deriving DecidableEq, Repr

/-- Modelled from the spec: `newJob` is not in the source.  The spec has
Schedule construct a job with next run `now + interval`, as `NewJob` of
package main does. -/
def newJob (path body : String) (interval : Duration) (oneOff : Bool) (now : Time) : Job :=
  ⟨path, body, interval, now + interval, oneOff⟩

/-- Modelled from the spec: `table.Get` is not in the source.  Per the spec it
returns the job stored under the key, or NotFound.  The spec stores no one-off
flag in the row, so the job read back carries `false`. -/
def tableGet (path body : String) (env : Env) (t : Table) : Except Error Job :=
  match env.dbErr with
  | some e => .error e
  | none =>
    match t.find? (fun r => r.hasKey path body) with
    | none => .error .notFound
    | some r => .ok ⟨r.routing_key, r.body, r.interval * Second, r.next_run, false⟩

/-- Modelled from the spec: `table.Insert` is not in the source.  Per the spec
it is the upsert that creates the row with the given interval and next run, or
replaces the interval of an existing row and moves its next run by the
difference of the intervals: the statement of `Job.Enter` of package main. -/
def tableInsert (j : Job) (env : Env) (t : Table) : Option Error × Table :=
  match env.dbErr with
  | some e => (some e, t)
  | none => (none, upsert j.Path j.Body (Seconds j.Interval) j.NextRun t)

/-- Modelled from the spec: `table.Delete` is not in the source.  Per the spec
it deletes the row of the key, or returns NotFound when there is none. -/
def tableDelete (path body : String) (env : Env) (t : Table) : Option Error × Table :=
  match env.dbErr with
  | some e => (some e, t)
  | none =>
    if t.any (fun r => r.hasKey path body) then (none, deleteWhere path body t)
    else (some .notFound, t)

/-- Go `JobManager` with what it points to: the table, and the wake-up calls
the scheduler has received (oldest first). -/
structure State where
  table : Table
  wakeUps : List String
deriving DecidableEq, Repr

/-- Modelled from the spec: `scheduler.WakeUp` is not in the source.  Per the
spec it is a signal without payload; the model records the call. -/
def WakeUp (debugMessage : String) (m : State) : State :=
  { m with wakeUps := m.wakeUps ++ [debugMessage] }

/-- Go `JobManager.Schedule`: build the job from the uint32 `interval`, insert
it, return the error if the insert fails, otherwise wake the scheduler and
return the job that was built. -/
def Schedule (path body : String) (interval : Nat) (oneOff : Bool) (env : Env) (m : State) :
    Except Error Job × State :=
  let job := newJob path body (wrapInt64 ((interval : Int) * Second)) oneOff env.now
  match tableInsert job env m.table with
  | (some e, _) => (.error e, m)
  | (none, t) => (.ok job, WakeUp "new job" { m with table := t })

/-- Go `JobManager.Trigger`: get the job (return the error if that fails), set
its `NextRun` to `time.Now().UTC()`, insert it (return the error if that
fails), wake the scheduler and return the job.  The environment `env` serves
the `Get` and the clock, `envInsert` the `Insert`. -/
def Trigger (path body : String) (env envInsert : Env) (m : State) :
    Except Error Job × State :=
  match tableGet path body env m.table with
  | .error e => (.error e, m)
  | .ok job0 =>
    let job := { job0 with NextRun := env.now }
    match tableInsert job envInsert m.table with
    | (some e, _) => (.error e, m)
    | (none, t) => (.ok job, WakeUp "job is triggered" { m with table := t })

/-- Go `JobManager.Cancel`: delete the row (return the error if that fails),
then wake the scheduler. -/
def Cancel (path body : String) (env : Env) (m : State) : Option Error × State :=
  match tableDelete path body env m.table with
  | (some e, _) => (some e, m)
  | (none, t) => (none, WakeUp "job cancelled" { m with table := t })

end JobManager

/-! ## Notions of the claims -/

namespace DalgaMain

/-- The number that a list of decimal digits continues from `n`. -/
def decimalValue (cs : List Char) (n : Nat) : Nat :=
  cs.foldl (fun n c => n * 10 + (c.toNat - '0'.toNat)) n

/-- The words of the spec, "a base-10 unsigned 32-bit integer": the string is
a non-empty run of decimal digits whose value `v` is below 2^32. -/
def IsUint32Decimal (s : String) (v : Nat) : Prop :=
  s.data ≠ [] ∧ (∀ c ∈ s.data, '0' ≤ c ∧ c ≤ '9') ∧ decimalValue s.data 0 = v ∧ v < 2 ^ 32

/-- An operation on the job table, each with the environment it runs in:
`Enter` of a job built by `NewJob`, `JobManager.Trigger`, `CancelJob`, and
`Job.Publish`. -/
inductive Op where
  | schedule (routingKey body : String) (interval : Nat) (env : Env)
  | trigger (routingKey body : String) (env envInsert : Env)
  | cancel (routingKey body : String) (env : Env)
  | publish (j : Job) (env : Env)
deriving DecidableEq, Repr

/-- The table after an operation. -/
def Op.run (t : Table) : Op → Table
  | .schedule rk b interval env => ((NewJob rk b interval env.now).Enter env t).2
  | .trigger rk b env envInsert => (JobManager.Trigger rk b env envInsert ⟨t, []⟩).2.table
  | .cancel rk b env => (CancelJob rk b env t).2
  | .publish j env => (j.Publish env ⟨"", t, [], .top⟩).2.db

/-- The table after a sequence of `Schedule` calls of one key, each given by
its interval and the time of the call, with the store working. -/
def scheduleAll (rk b : String) (calls : List (Nat × Time)) (t : Table) : Table :=
  calls.foldl (fun t c => ((NewJob rk b c.1 c.2).Enter (Env.fine c.2) t).2) t

/-- Whether the job carried at a publisher label, if any, has the key. -/
def PC.carriesKey (rk b : String) : PC → Prop
  | .top => False
  | .idle => False
  | .checkNextRun job => job.RoutingKey = rk ∧ job.Body = b
  | .sleeping job => job.RoutingKey = rk ∧ job.Body = b

/-- The key is gone from the running program: no row of the table has it and
the publisher carries no job of it. -/
def KeyFree (rk b : String) (d : Dalga) : Prop :=
  (∀ r ∈ d.db, r.hasKey rk b = false) ∧ ¬ d.pc.carriesKey rk b

/-- The message is one of the key: addressed to the routing key and carrying
the body. -/
def Publishing.ofKey (m : Publishing) (rk b : String) : Prop :=
  m.key = rk ∧ m.Body = b

end DalgaMain

/-! ## Lemmas on the table statements -/

namespace DalgaMain

theorem hasKey_iff (r : Row) (rk b : String) :
    r.hasKey rk b = true ↔ r.routing_key = rk ∧ r.body = b := by
  simp [Row.hasKey]

theorem hasKey_false_iff (r : Row) (rk b : String) :
    r.hasKey rk b = false ↔ ¬ (r.routing_key = rk ∧ r.body = b) := by
  simp [Row.hasKey]

theorem wrapInt64_of_range (x : Int) (h0 : 0 ≤ x) (h1 : x < 2 ^ 63) : wrapInt64 x = x := by
  unfold wrapInt64
  have h : (x + 2 ^ 63) % 2 ^ 64 = x + 2 ^ 63 := Int.emod_eq_of_lt (by omega) (by omega)
  omega

theorem Seconds_mul_Second (n : Int) : Seconds (n * Second) = n := by
  unfold Seconds Second
  exact Int.mul_tdiv_cancel n (by decide)

theorem NewJob_Interval (rk b : String) (n : Nat) (now : Time) (h : n < 2 ^ 32) :
    (NewJob rk b n now).Interval = (n : Int) * Second := by
  simp only [NewJob]
  apply wrapInt64_of_range
  · unfold Second; omega
  · unfold Second; omega

/-- In a table with unique keys the rows selected by a key that occurs are
that one row. -/
theorem filter_hasKey_of_unique (t : Table) (r0 : Row) (rk b : String)
    (hu : KeysUnique t) (hm : r0 ∈ t) (hk : r0.hasKey rk b = true) :
    t.filter (fun r => r.hasKey rk b) = [r0] := by
  induction t with
  | nil => cases hm
  | cons r rs ih =>
    have hu2 := List.pairwise_cons.mp hu
    rw [hasKey_iff] at hk
    rcases List.mem_cons.mp hm with h | h
    · subst h
      have hrest : rs.filter (fun r => r.hasKey rk b) = [] := by
        apply List.filter_eq_nil_iff.mpr
        intro s hs hsk
        rw [hasKey_iff] at hsk
        exact hu2.1 s hs ⟨hk.1.trans hsk.1.symm, hk.2.trans hsk.2.symm⟩
      have hr : r0.hasKey rk b = true := (hasKey_iff _ _ _).mpr hk
      simp [List.filter_cons, hr, hrest]
    · have hr : r.hasKey rk b = false := by
        rw [hasKey_false_iff]
        intro hrk
        exact hu2.1 r0 h ⟨hrk.1.trans hk.1.symm, hrk.2.trans hk.2.symm⟩
      simp only [List.filter_cons, hr]
      exact ih hu2.2 h

theorem upsertRow_key (rk b : String) (i : Int) (r : Row) :
    (upsertRow rk b i r).routing_key = r.routing_key ∧ (upsertRow rk b i r).body = r.body := by
  unfold upsertRow
  split <;> simp

theorem upsertRow_hasKey (rk b : String) (i : Int) (r : Row) (rk2 b2 : String) :
    (upsertRow rk b i r).hasKey rk2 b2 = r.hasKey rk2 b2 := by
  have h := upsertRow_key rk b i r
  simp [Row.hasKey, h.1, h.2]

theorem upsert_of_any (rk b : String) (i : Int) (nr : Time) (t : Table)
    (h : t.any (fun r => r.hasKey rk b) = true) :
    upsert rk b i nr t = t.map (upsertRow rk b i) := by
  unfold upsert
  rw [if_pos h]

theorem upsert_of_not_any (rk b : String) (i : Int) (nr : Time) (t : Table)
    (h : t.any (fun r => r.hasKey rk b) = false) :
    upsert rk b i nr t = t ++ [⟨rk, b, i, nr⟩] := by
  unfold upsert
  rw [if_neg (by simp [h])]

theorem filter_map_upsertRow (rk b : String) (i : Int) (t : Table) (rk2 b2 : String) :
    (t.map (upsertRow rk b i)).filter (fun r => r.hasKey rk2 b2)
      = (t.filter (fun r => r.hasKey rk2 b2)).map (upsertRow rk b i) := by
  induction t with
  | nil => rfl
  | cons r rs ih =>
    simp only [List.map_cons, List.filter_cons, upsertRow_hasKey]
    split
    · simp [ih]
    · exact ih

theorem KeysUnique_map (t : Table) (f : Row → Row)
    (hf : ∀ r, (f r).routing_key = r.routing_key ∧ (f r).body = r.body)
    (hu : KeysUnique t) : KeysUnique (t.map f) := by
  unfold KeysUnique at *
  rw [List.pairwise_map]
  refine hu.imp ?_
  intro r s h
  rw [(hf r).1, (hf r).2, (hf s).1, (hf s).2]
  exact h

theorem KeysUnique_upsert (rk b : String) (i : Int) (nr : Time) (t : Table)
    (hu : KeysUnique t) : KeysUnique (upsert rk b i nr t) := by
  cases h : t.any (fun r => r.hasKey rk b) with
  | true =>
    rw [upsert_of_any _ _ _ _ _ h]
    exact KeysUnique_map t _ (upsertRow_key rk b i) hu
  | false =>
    rw [upsert_of_not_any _ _ _ _ _ h]
    unfold KeysUnique at *
    rw [List.pairwise_append]
    refine ⟨hu, List.pairwise_singleton _ _, ?_⟩
    intro r hr s hs
    rw [List.mem_singleton] at hs
    subst hs
    have hr2 := (List.any_eq_false.mp h) r hr
    simpa [Row.hasKey] using hr2

theorem KeysUnique_deleteWhere (rk b : String) (t : Table) (hu : KeysUnique t) :
    KeysUnique (deleteWhere rk b t) := by
  unfold KeysUnique deleteWhere at *
  exact hu.filter _

theorem KeysUnique_updateNextRun (nr : Time) (rk b : String) (t : Table) (hu : KeysUnique t) :
    KeysUnique (updateNextRun nr rk b t) := by
  unfold updateNextRun
  apply KeysUnique_map _ _ _ hu
  intro r
  split <;> simp

/-- The upsert over a table that holds the key: that row, and only it, is
rewritten. -/
theorem filter_upsert_of_mem (t : Table) (rk b : String) (I I2 : Int) (T nr : Time)
    (hu : KeysUnique t) (hm : (⟨rk, b, I, T⟩ : Row) ∈ t) :
    (upsert rk b I2 nr t).filter (fun r => r.hasKey rk b)
      = [⟨rk, b, I2, T + (I2 - I) * Second⟩] := by
  have hk : (⟨rk, b, I, T⟩ : Row).hasKey rk b = true := by simp [Row.hasKey]
  have hany : t.any (fun r => r.hasKey rk b) = true := List.any_eq_true.mpr ⟨_, hm, hk⟩
  rw [upsert_of_any _ _ _ _ _ hany, filter_map_upsertRow,
    filter_hasKey_of_unique t _ rk b hu hm hk]
  simp [upsertRow, hk]

/-- The upsert over a table that does not hold the key: the given row is the
one row of that key. -/
theorem filter_upsert_of_not_mem (t : Table) (rk b : String) (I2 : Int) (nr : Time)
    (hn : ∀ r ∈ t, r.hasKey rk b = false) :
    (upsert rk b I2 nr t).filter (fun r => r.hasKey rk b) = [⟨rk, b, I2, nr⟩] := by
  have hany : t.any (fun r => r.hasKey rk b) = false := List.any_eq_false.mpr (by simpa using hn)
  have hnil : t.filter (fun r => r.hasKey rk b) = [] :=
    List.filter_eq_nil_iff.mpr (by simpa using hn)
  rw [upsert_of_not_any _ _ _ _ _ hany, List.filter_append, hnil]
  simp [Row.hasKey]

/-- The upsert leaves the rows of every other key as they were. -/
theorem filter_upsert_other (t : Table) (rk b rk2 b2 : String) (I2 : Int) (nr : Time)
    (hne : ¬ (rk = rk2 ∧ b = b2)) :
    (upsert rk b I2 nr t).filter (fun r => r.hasKey rk2 b2)
      = t.filter (fun r => r.hasKey rk2 b2) := by
  cases h : t.any (fun r => r.hasKey rk b) with
  | true =>
    rw [upsert_of_any _ _ _ _ _ h, filter_map_upsertRow]
    have hid : ∀ r ∈ t.filter (fun r => r.hasKey rk2 b2), upsertRow rk b I2 r = id r := by
      intro r hr
      have hr2 := (hasKey_iff _ _ _).mp (List.mem_filter.mp hr).2
      have hf : r.hasKey rk b = false := by
        rw [hasKey_false_iff]
        intro hrk
        exact hne ⟨hrk.1.symm.trans hr2.1, hrk.2.symm.trans hr2.2⟩
      simp [upsertRow, hf]
    rw [List.map_congr_left hid, List.map_id]
  | false =>
    rw [upsert_of_not_any _ _ _ _ _ h, List.filter_append]
    simp [Row.hasKey, hne]

end DalgaMain

/-! ## The upsert of `Job.Enter` -/

namespace DalgaMain

/-- C1 (phase preservation of the upsert).  In a table with unique keys that
holds a row of key (routingKey, body) with interval `I` and next run `T`,
`Job.Enter` of a job of that key with an interval of `I2` seconds and any
next run leaves exactly one row of the key, with interval `I2` and next run
`T + (I2 - I)` seconds: the supplied next run is not used.  When no row has
the key, the one row of the key is the given interval and the given next run.
In both cases `Enter` returns no error when the store works. -/
theorem Enter_phase_preservation (t : Table) (rk b : String) (I2 : Int) (nextRun now : Time)
    (hu : KeysUnique t) :
    (Job.Enter ⟨rk, b, I2 * Second, nextRun⟩ (Env.fine now) t).1 = none ∧
    (∀ I T, (⟨rk, b, I, T⟩ : Row) ∈ t →
      (Job.Enter ⟨rk, b, I2 * Second, nextRun⟩ (Env.fine now) t).2.filter
          (fun r => r.hasKey rk b)
        = [⟨rk, b, I2, T + (I2 - I) * Second⟩]) ∧
    ((∀ r ∈ t, r.hasKey rk b = false) →
      (Job.Enter ⟨rk, b, I2 * Second, nextRun⟩ (Env.fine now) t).2.filter
          (fun r => r.hasKey rk b)
        = [⟨rk, b, I2, nextRun⟩]) := by
  refine ⟨rfl, ?_, ?_⟩
  · intro I T hm
    simp only [Job.Enter, Env.fine, Seconds_mul_Second]
    exact filter_upsert_of_mem t rk b I I2 T nextRun hu hm
  · intro hn
    simp only [Job.Enter, Env.fine, Seconds_mul_Second]
    exact filter_upsert_of_not_mem t rk b I2 nextRun hn

/-- Witness of C1: a row of interval 10 s due at 100 s, rescheduled to 20 s by a
job that asks for 27 s, is due at 110 s. -/
theorem Enter_phase_preservation_witness :
    KeysUnique [(⟨"k", "b", 10, 100 * Second⟩ : Row)] ∧
    (Job.Enter ⟨"k", "b", 20 * Second, 27 * Second⟩ (Env.fine (7 * Second))
        [(⟨"k", "b", 10, 100 * Second⟩ : Row)]).2.filter (fun r => r.hasKey "k" "b")
      = [⟨"k", "b", 20, 100 * Second + (20 - 10) * Second⟩] :=
  ⟨by decide,
   (Enter_phase_preservation [(⟨"k", "b", 10, 100 * Second⟩ : Row)] "k" "b" 20
      (27 * Second) (7 * Second) (by decide)).2.1 10 (100 * Second) (by simp)⟩

end DalgaMain

/-! ## `Job.Publish` -/

namespace DalgaMain

theorem toDigitsCore_append (b : Nat) (f : Nat) : ∀ (n : Nat) (ds : List Char),
    Nat.toDigitsCore b f n ds = Nat.toDigitsCore b f n [] ++ ds := by
  induction f with
  | zero => intro n ds; simp [Nat.toDigitsCore]
  | succ f ih =>
    intro n ds
    simp only [Nat.toDigitsCore]
    split
    · simp
    · rw [ih (n / b) (Nat.digitChar (n % b) :: ds), ih (n / b) [Nat.digitChar (n % b)]]
      simp

theorem toDigitsCore_fuel (b : Nat) (hb : 2 ≤ b) : ∀ (n f g : Nat) (ds : List Char),
    n < f → n < g → Nat.toDigitsCore b f n ds = Nat.toDigitsCore b g n ds := by
  intro n
  induction n using Nat.strong_induction_on with
  | _ n ih =>
    intro f g ds hf hg
    cases f with
    | zero => omega
    | succ f =>
      cases g with
      | zero => omega
      | succ g =>
        simp only [Nat.toDigitsCore]
        split
        · rfl
        · rename_i hne
          have hpos : 0 < n := by
            rcases Nat.eq_zero_or_pos n with h | h
            · subst h; simp at hne
            · exact h
          have hlt : n / b < n := Nat.div_lt_self hpos hb
          exact ih (n / b) hlt f g _ (by omega) (by omega)

theorem toDigits_ten_mul (n : Nat) (h : 0 < n) :
    Nat.toDigits 10 (10 * n) = Nat.toDigits 10 n ++ ['0'] := by
  unfold Nat.toDigits
  have h1 : 10 * n / 10 = n := by omega
  have h2 : 10 * n % 10 = 0 := by omega
  have h3 : n ≠ 0 := by omega
  rw [Nat.toDigitsCore]
  simp only [h1, h2, h3, if_false]
  rw [toDigitsCore_append, toDigitsCore_fuel 10 (by decide) n (10 * n) (n + 1) [] (by omega) (by omega)]
  rfl

theorem repr_mul_thousand (n : Nat) (h : 0 < n) :
    Nat.repr n ++ "000" = Nat.repr (n * 1000) := by
  have e : n * 1000 = 10 * (10 * (10 * n)) := by ring
  unfold Nat.repr
  rw [e, toDigits_ten_mul _ (by omega), toDigits_ten_mul _ (by omega), toDigits_ten_mul _ h]
  simp only [List.append_assoc, List.singleton_append]
  apply String.ext
  simp [List.asString]

/-- C6 (Publish advances the schedule before emitting).  If the store update
fails, `Job.Publish` returns that error and leaves table and broker as they
were.  If it succeeds, every row keeps its key and interval, the rows of the
key of `j` get next run `now + j.Interval`, every other row keeps its next
run; if the broker then refuses the message, `Publish` returns that error, no
message is emitted and the table keeps the advanced next run; otherwise it
returns no error and the one message is emitted. -/
theorem Publish_advances_before_emitting (j : Job) (env : Env) (d : Dalga) :
    (∀ e, env.dbErr = some e → j.Publish env d = (some e, d)) ∧
    (env.dbErr = none →
      List.Forall₂
        (fun r r2 => r2.routing_key = r.routing_key ∧ r2.body = r.body ∧
          r2.interval = r.interval ∧
          r2.next_run = if r.hasKey j.RoutingKey j.Body then env.now + j.Interval
                        else r.next_run)
        d.db (j.Publish env d).2.db ∧
      (∀ e, env.brokerErr = some e →
        (j.Publish env d).1 = some e ∧ (j.Publish env d).2.broker = d.broker) ∧
      (env.brokerErr = none →
        (j.Publish env d).1 = none ∧
        (j.Publish env d).2.broker = d.broker ++ [j.message d.exchange env.now])) := by
  refine ⟨?_, ?_⟩
  · intro e he
    simp [Job.Publish, he]
  · intro hdb
    have hdbEq : (j.Publish env d).2.db
        = updateNextRun (env.now + j.Interval) j.RoutingKey j.Body d.db := by
      simp only [Job.Publish, hdb]
      cases env.brokerErr <;> rfl
    refine ⟨?_, ?_, ?_⟩
    · rw [hdbEq]
      unfold updateNextRun
      rw [List.forall₂_map_right_iff]
      apply List.forall₂_same.mpr
      intro r _
      split <;> simp
    · intro e he
      simp [Job.Publish, hdb, he]
    · intro he
      simp [Job.Publish, hdb, he]

/-- Witness of C6: the broker refuses the message of a job due every 5 s; the
row is advanced all the same and nothing is emitted. -/
theorem Publish_advances_before_emitting_witness :
    (Job.Publish ⟨"k", "b", 5 * Second, 100 * Second⟩ ⟨100 * Second, none, some (.broker "down")⟩
        ⟨"ex", [⟨"k", "b", 5, 100 * Second⟩], [], .top⟩).1 = some (.broker "down") ∧
    (Job.Publish ⟨"k", "b", 5 * Second, 100 * Second⟩ ⟨100 * Second, none, some (.broker "down")⟩
        ⟨"ex", [⟨"k", "b", 5, 100 * Second⟩], [], .top⟩).2.broker = [] :=
  ((Publish_advances_before_emitting ⟨"k", "b", 5 * Second, 100 * Second⟩
      ⟨100 * Second, none, some (.broker "down")⟩
      ⟨"ex", [⟨"k", "b", 5, 100 * Second⟩], [], .top⟩).2 rfl).2.1 (.broker "down") rfl

/-- C7 (message expiration is the interval in milliseconds).  For a job built
by `NewJob` from `n` seconds, `1 ≤ n < 2^32`, a `Job.Publish` that goes
through emits exactly one message; its `Expiration`, the decimal digits of `n`
followed by "000", is the decimal representation of `n * 1000`; it is
addressed to the routing key of the job and carries its body. -/
theorem Publish_expiration_milliseconds (rk body : String) (n : Nat) (now t : Time) (d : Dalga)
    (h1 : 1 ≤ n) (h2 : n < 2 ^ 32) :
    ∃ m : Publishing,
      ((NewJob rk body n now).Publish (Env.fine t) d).2.broker = d.broker ++ [m] ∧
      m.Expiration = Nat.repr (n * 1000) ∧
      m.key = rk ∧ m.Body = body ∧ m.exchange = d.exchange := by
  refine ⟨(NewJob rk body n now).message d.exchange t, rfl, ?_, rfl, rfl, rfl⟩
  have hi := NewJob_Interval rk body n now h2
  simp only [Job.message, hi, Seconds_mul_Second, FormatUint, Int.toNat_ofNat]
  rw [Nat.mod_eq_of_lt (by omega)]
  exact repr_mul_thousand n h1

/-- Witness of C7 at an interval of 5 seconds. -/
theorem Publish_expiration_milliseconds_witness :
    1 ≤ 5 ∧ 5 < 2 ^ 32 ∧
    ∃ m : Publishing,
      ((NewJob "k" "b" 5 0).Publish (Env.fine 0) ⟨"ex", [], [], .top⟩).2.broker = [] ++ [m] ∧
      m.Expiration = Nat.repr (5 * 1000) ∧
      m.key = "k" ∧ m.Body = "b" ∧ m.exchange = "ex" :=
  ⟨by decide, by decide,
   Publish_expiration_milliseconds "k" "b" 5 0 0 ⟨"ex", [], [], .top⟩ (by decide) (by decide)⟩

end DalgaMain

/-! ## The handlers -/

namespace DalgaMain

theorem decimalValue_ge (cs : List Char) : ∀ n, n ≤ decimalValue cs n := by
  induction cs with
  | nil => intro n; exact Nat.le_refl n
  | cons c cs ih =>
    intro n
    simp only [decimalValue, List.foldl_cons]
    have := ih (n * 10 + (c.toNat - '0'.toNat))
    simp only [decimalValue] at this
    omega

theorem digit_value_le (c : Char) (h : '0' ≤ c ∧ c ≤ '9') : c.toNat - '0'.toNat ≤ 9 := by
  have h2 : c.toNat ≤ '9'.toNat := h.2
  have : '9'.toNat = 57 := rfl
  have : '0'.toNat = 48 := rfl
  omega

theorem parseUintLoop_iff (cs : List Char) : ∀ (n v : Nat), n ≤ 4294967295 →
    (parseUintLoop 4294967295 cs n = .ok v ↔
      (∀ c ∈ cs, '0' ≤ c ∧ c ≤ '9') ∧ decimalValue cs n = v ∧ v ≤ 4294967295) := by
  induction cs with
  | nil =>
    intro n v hn
    simp only [parseUintLoop, decimalValue, List.foldl_nil]
    constructor
    · intro h
      cases h
      exact ⟨by simp, rfl, hn⟩
    · rintro ⟨_, h, _⟩
      rw [h]
  | cons c cs ih =>
    intro n v hn
    simp only [parseUintLoop]
    by_cases hc : '0' ≤ c ∧ c ≤ '9'
    · have hv := digit_value_le c hc
      rw [if_pos hc, if_neg (by omega)]
      have hmod : (n * 10 + (c.toNat - '0'.toNat)) % 2 ^ 64 = n * 10 + (c.toNat - '0'.toNat) :=
        Nat.mod_eq_of_lt (by omega)
      simp only [hmod]
      by_cases hbig : n * 10 + (c.toNat - '0'.toNat) > 4294967295
      · rw [if_pos (Or.inr hbig)]
        constructor
        · intro h; cases h
        · rintro ⟨_, h, hle⟩
          have := decimalValue_ge cs (n * 10 + (c.toNat - '0'.toNat))
          simp only [decimalValue, List.foldl_cons] at h this
          omega
      · rw [if_neg (by omega)]
        rw [ih _ v (by omega)]
        simp only [decimalValue, List.foldl_cons, List.mem_cons, forall_eq_or_imp]
        tauto
    · rw [if_neg hc]
      constructor
      · intro h; cases h
      · rintro ⟨h, _⟩
        exact absurd (h c (List.mem_cons_self _ _)) hc

theorem ParseUint_iff (s : String) (v : Nat) :
    ParseUint s 32 = .ok v ↔ IsUint32Decimal s v := by
  unfold ParseUint IsUint32Decimal
  by_cases hs : s.data = []
  · simp [hs]
  · rw [if_neg hs]
    have e : 2 ^ 32 - 1 = 4294967295 := by norm_num
    rw [e, parseUintLoop_iff s.data 0 v (by omega)]
    have e2 : (2 : Nat) ^ 32 = 4294967296 := by norm_num
    rw [e2]
    constructor
    · rintro ⟨h1, h2, h3⟩
      exact ⟨hs, h1, h2, by omega⟩
    · rintro ⟨_, h1, h2, h3⟩
      exact ⟨h1, h2, by omega⟩

theorem sendNewJob_db (j : Job) (d : Dalga) :
    (sendNewJob j d).1.db = d.db ∧ (sendNewJob j d).1.broker = d.broker ∧
    (sendNewJob j d).1.exchange = d.exchange := by
  unfold sendNewJob
  split <;> simp

theorem sendCanceled_db (rk b : String) (d : Dalga) :
    (sendCanceled rk b d).1.db = d.db ∧ (sendCanceled rk b d).1.broker = d.broker ∧
    (sendCanceled rk b d).1.exchange = d.exchange := by
  unfold sendCanceled
  split
  · split <;> simp
  · simp

/-- What `JobManager.Schedule` computes when the store works. -/
theorem Schedule_eq (path body : String) (interval : Nat) (oneOff : Bool) (env : Env)
    (m : JobManager.State) (hlt : interval < 2 ^ 32) (henv : env.dbErr = none) :
    JobManager.Schedule path body interval oneOff env m
      = (.ok (JobManager.newJob path body ((interval : Int) * Second) oneOff env.now),
         ⟨upsert path body interval (env.now + (interval : Int) * Second) m.table,
          m.wakeUps ++ ["new job"]⟩) := by
  have hw : wrapInt64 ((interval : Int) * Second) = (interval : Int) * Second := by
    apply wrapInt64_of_range
    · unfold Second; omega
    · unfold Second; omega
  simp only [JobManager.Schedule, JobManager.tableInsert, JobManager.newJob, henv, hw,
    Seconds_mul_Second, JobManager.WakeUp]

/-- C8, as amended (validation at the front end).  A request whose interval is
not a base-10 unsigned 32-bit integer of value at least 1 is answered 400 by
`handleSchedule`, with the program state untouched and no signal sent.  Every
other request, whatever its routing key (the empty one included), is upserted
when the store works: the table becomes the upsert of (routing key, body,
interval, now + interval).  `JobManager.Schedule` checks nothing: for every
path, body and uint32 interval it upserts and wakes the scheduler. -/
theorem handleSchedule_validation (r : Request) (env : Env) (d : Dalga) :
    ((∀ n, IsUint32Decimal r.interval n → n < 1) →
      ∃ msg, handleSchedule r env d = (.httpError msg 400, d, false)) ∧
    (∀ n, IsUint32Decimal r.interval n → 1 ≤ n → env.dbErr = none →
      (handleSchedule r env d).1 = .ok ∧
      (handleSchedule r env d).2.1.db
        = upsert r.routing_key r.body n (env.now + (n : Int) * Second) d.db) ∧
    (∀ (path body : String) (interval : Nat) (oneOff : Bool) (m : JobManager.State),
      interval < 2 ^ 32 → env.dbErr = none →
      ∃ job, JobManager.Schedule path body interval oneOff env m
        = (.ok job, ⟨upsert path body interval (env.now + (interval : Int) * Second) m.table,
                     m.wakeUps ++ ["new job"]⟩)) := by
  refine ⟨?_, ?_, ?_⟩
  · intro hbad
    cases h : ParseUint r.interval 32 with
    | error e => exact ⟨"Cannot parse interval", by simp [handleSchedule, h]⟩
    | ok n =>
      have hn := hbad n ((ParseUint_iff _ _).mp h)
      exact ⟨"interval must be >= 1", by simp [handleSchedule, h, hn]⟩
  · intro n hn h1 henv
    have hp := (ParseUint_iff _ _).mpr hn
    have hlt : n < 2 ^ 32 := hn.2.2.2
    have hmod : n % 2 ^ 32 = n := Nat.mod_eq_of_lt hlt
    have hi := NewJob_Interval r.routing_key r.body n env.now hlt
    have hnr : (NewJob r.routing_key r.body n env.now).NextRun = env.now + (n : Int) * Second := by
      have : (NewJob r.routing_key r.body n env.now).NextRun
          = env.now + (NewJob r.routing_key r.body n env.now).Interval := rfl
      rw [this, hi]
    have hrk : (NewJob r.routing_key r.body n env.now).RoutingKey = r.routing_key := rfl
    have hb : (NewJob r.routing_key r.body n env.now).Body = r.body := rfl
    simp only [handleSchedule, hp, hmod, Job.Enter, henv, hi, hnr, hrk, hb, Seconds_mul_Second]
    rw [if_neg (by omega)]
    exact ⟨rfl, (sendNewJob_db _ _).1⟩
  · intro path body interval oneOff m hlt henv
    exact ⟨_, Schedule_eq path body interval oneOff env m hlt henv⟩

/-- Witness of C8: the request "5" for the routing key "k". -/
theorem handleSchedule_validation_witness :
    IsUint32Decimal "5" 5 ∧
    (handleSchedule ⟨"k", "b", "5"⟩ (Env.fine 0) ⟨"ex", [], [], .top⟩).1 = .ok ∧
    (handleSchedule ⟨"k", "b", "5"⟩ (Env.fine 0) ⟨"ex", [], [], .top⟩).2.1.db
      = upsert "k" "b" 5 (0 + ((5 : Nat) : Int) * Second) [] :=
  ⟨by unfold IsUint32Decimal; decide,
   (handleSchedule_validation ⟨"k", "b", "5"⟩ (Env.fine 0) ⟨"ex", [], [], .top⟩).2.1 5
     (by unfold IsUint32Decimal; decide) (by decide) rfl⟩

/-- Counterexample to C8 as stated: a request with an empty routing key and
the interval "5" is answered normally, its row is written and the idle
publisher is woken; `JobManager.Schedule` with interval 0 writes its row and
wakes the scheduler. -/
theorem handleSchedule_accepts_empty_routing_key :
    handleSchedule ⟨"", "b", "5"⟩ (Env.fine 0) ⟨"ex", [], [], .idle⟩
      = (.ok, ⟨"ex", [⟨"", "b", 5, 5 * Second⟩], [],
              .checkNextRun ⟨"", "b", 5 * Second, 5 * Second⟩⟩, true) ∧
    JobManager.Schedule "p" "b" 0 false (Env.fine 0) ⟨[], []⟩
      = (.ok ⟨"p", "b", 0, 0, false⟩, ⟨[⟨"p", "b", 0, 0⟩], ["new job"]⟩) := by
  decide

end DalgaMain

/-! ## Cancel and Trigger -/

namespace DalgaMain

theorem eq_of_mem_of_hasKey (t : Table) (r r0 : Row) (rk b : String) (hu : KeysUnique t)
    (h0 : r0 ∈ t) (hk0 : r0.hasKey rk b = true) (h : r ∈ t) (hk : r.hasKey rk b = true) :
    r = r0 := by
  have hf := filter_hasKey_of_unique t r0 rk b hu h0 hk0
  have hm : r ∈ t.filter (fun r => r.hasKey rk b) := List.mem_filter.mpr ⟨h, hk⟩
  rw [hf] at hm
  exact List.mem_singleton.mp hm

theorem deleteWhere_of_no_key (t : Table) (rk b : String)
    (hn : ∀ r ∈ t, r.hasKey rk b = false) : deleteWhere rk b t = t := by
  unfold deleteWhere
  apply List.filter_eq_self.mpr
  intro r hr
  simp [hn r hr]

theorem deleteWhere_of_unique (t : Table) (r0 : Row) (rk b : String) (hu : KeysUnique t)
    (h0 : r0 ∈ t) (hk0 : r0.hasKey rk b = true) :
    (deleteWhere rk b t).length + 1 = t.length ∧
    ∀ r, r ∈ deleteWhere rk b t ↔ (r ∈ t ∧ r ≠ r0) := by
  constructor
  · have hlen := List.length_eq_length_filter_add (l := t) (fun r => r.hasKey rk b)
    rw [filter_hasKey_of_unique t r0 rk b hu h0 hk0] at hlen
    unfold deleteWhere
    simp only [List.length_singleton] at hlen
    omega
  · intro r
    unfold deleteWhere
    rw [List.mem_filter]
    constructor
    · rintro ⟨hr, hk⟩
      refine ⟨hr, ?_⟩
      intro he
      subst he
      simp [hk0] at hk
    · rintro ⟨hr, hne⟩
      refine ⟨hr, ?_⟩
      cases hk : r.hasKey rk b with
      | false => rfl
      | true => exact absurd (eq_of_mem_of_hasKey t r r0 rk b hu h0 hk0 hr hk) hne

/-- C9, as amended (not-found).  On a table without the key,
`JobManager.Trigger` and `JobManager.Cancel` return NotFound, leave the table
as it was and do not wake the scheduler; `CancelJob` of package main returns
no error and leaves the table as it was, and `handleCancel` answers normally
and still sends its cancel signal whenever the publisher sleeps on a job.  On
a table that holds the key, `JobManager.Cancel` and `CancelJob` succeed and
remove exactly that row: one row fewer, and the rows left are the other rows
of the table. -/
theorem Cancel_Trigger_not_found (t : Table) (rk b : String) (env env2 : Env)
    (w : List String) (henv : env.dbErr = none) :
    ((∀ r ∈ t, r.hasKey rk b = false) →
      JobManager.Trigger rk b env env2 ⟨t, w⟩ = (.error .notFound, ⟨t, w⟩) ∧
      JobManager.Cancel rk b env ⟨t, w⟩ = (some .notFound, ⟨t, w⟩) ∧
      CancelJob rk b env t = (none, t) ∧
      ∀ (ex : String) (br : List Publishing) (job : Job),
        (handleCancel rk b env ⟨ex, t, br, .sleeping job⟩).1 = .ok ∧
        (handleCancel rk b env ⟨ex, t, br, .sleeping job⟩).2.1.db = t ∧
        (handleCancel rk b env ⟨ex, t, br, .sleeping job⟩).2.2 = true) ∧
    (∀ r0 ∈ t, r0.hasKey rk b = true → KeysUnique t →
      JobManager.Cancel rk b env ⟨t, w⟩
        = (none, ⟨deleteWhere rk b t, w ++ ["job cancelled"]⟩) ∧
      CancelJob rk b env t = (none, deleteWhere rk b t) ∧
      (deleteWhere rk b t).length + 1 = t.length ∧
      ∀ r, r ∈ deleteWhere rk b t ↔ (r ∈ t ∧ r ≠ r0)) := by
  constructor
  · intro hn
    have hfind : t.find? (fun r => r.hasKey rk b) = none :=
      List.find?_eq_none.mpr (by intro r hr; simp [hn r hr])
    have hany : t.any (fun r => r.hasKey rk b) = false :=
      List.any_eq_false.mpr (by intro r hr; simp [hn r hr])
    have hdel := deleteWhere_of_no_key t rk b hn
    refine ⟨?_, ?_, ?_, ?_⟩
    · simp [JobManager.Trigger, JobManager.tableGet, henv, hfind]
    · simp [JobManager.Cancel, JobManager.tableDelete, henv, hany]
    · simp [CancelJob, henv, hdel]
    · intro ex br job
      simp only [handleCancel, CancelJob, henv, hdel, sendCanceled]
      split <;> simp
  · intro r0 h0 hk0 hu
    have hany : t.any (fun r => r.hasKey rk b) = true := List.any_eq_true.mpr ⟨r0, h0, hk0⟩
    have hd := deleteWhere_of_unique t r0 rk b hu h0 hk0
    refine ⟨?_, ?_, hd.1, hd.2⟩
    · simp [JobManager.Cancel, JobManager.tableDelete, henv, hany, JobManager.WakeUp]
    · simp [CancelJob, henv]

/-- Counterexample to C9 as stated: `/cancel` of a key the table does not hold,
while the publisher sleeps on another job, is answered normally (no NotFound)
and the cancel signal is sent and wakes the publisher. -/
theorem handleCancel_of_absent_key_signals :
    CancelJob "k" "b" (Env.fine 0) [⟨"other", "b", 5, 100 * Second⟩]
      = (none, [⟨"other", "b", 5, 100 * Second⟩]) ∧
    handleCancel "k" "b" (Env.fine 0)
        ⟨"ex", [⟨"other", "b", 5, 100 * Second⟩], [],
         .sleeping ⟨"other", "b", 5 * Second, 100 * Second⟩⟩
      = (.ok, ⟨"ex", [⟨"other", "b", 5, 100 * Second⟩], [],
               .checkNextRun ⟨"other", "b", 5 * Second, 100 * Second⟩⟩, true) := by
  decide

/-- Witness of C9: cancelling the one row of a table. -/
theorem Cancel_Trigger_not_found_witness :
    (Env.fine 0).dbErr = none ∧
    JobManager.Cancel "k" "b" (Env.fine 0) ⟨[⟨"k", "b", 5, 100⟩], []⟩
      = (none, ⟨deleteWhere "k" "b" [⟨"k", "b", 5, 100⟩], [] ++ ["job cancelled"]⟩) :=
  ⟨rfl, ((Cancel_Trigger_not_found [⟨"k", "b", 5, 100⟩] "k" "b" (Env.fine 0) (Env.fine 0) []
      rfl).2 ⟨"k", "b", 5, 100⟩ (by simp) (by decide) (by decide)).1⟩

/-! ## Trigger and Schedule of the job manager -/

/-- With the key present in a table with unique keys, `JobManager.Trigger`
writes back the row it read: the table is left as it was, whatever the time
of the trigger. -/
theorem Trigger_leaves_table (t : Table) (r0 : Row) (rk b : String) (env env2 : Env)
    (w : List String) (hu : KeysUnique t) (h0 : r0 ∈ t) (hk0 : r0.hasKey rk b = true)
    (henv : env.dbErr = none) (henv2 : env2.dbErr = none) :
    JobManager.Trigger rk b env env2 ⟨t, w⟩
      = (.ok ⟨rk, b, r0.interval * Second, env.now, false⟩, ⟨t, w ++ ["job is triggered"]⟩) := by
  have hfind : t.find? (fun r => r.hasKey rk b) = some r0 := by
    cases hf : t.find? (fun r => r.hasKey rk b) with
    | none =>
      have := List.find?_eq_none.mp hf r0 h0
      simp [hk0] at this
    | some r =>
      have hr := List.mem_of_find?_eq_some hf
      have hk := List.find?_some hf
      rw [eq_of_mem_of_hasKey t r r0 rk b hu h0 hk0 hr hk]
  have hany : t.any (fun r => r.hasKey rk b) = true := List.any_eq_true.mpr ⟨r0, h0, hk0⟩
  have hkey := (hasKey_iff _ _ _).mp hk0
  have hmap : t.map (upsertRow rk b r0.interval) = t := by
    have hid : ∀ r ∈ t, upsertRow rk b r0.interval r = id r := by
      intro r hr
      cases hk : r.hasKey rk b with
      | false => simp [upsertRow, hk]
      | true =>
        have := eq_of_mem_of_hasKey t r r0 rk b hu h0 hk0 hr hk
        subst this
        simp [upsertRow, hk]
    rw [List.map_congr_left hid, List.map_id]
  simp only [JobManager.Trigger, JobManager.tableGet, henv, hfind, JobManager.tableInsert, henv2,
    Seconds_mul_Second, hkey.1, hkey.2, upsert_of_any _ _ _ _ _ hany, hmap, JobManager.WakeUp]

/-- C2 at its failing input: a job of interval 10 s due at 100 s is triggered at
50 s.  `Trigger` returns a job with next run 50 s, but the row stored for the
key still has next run 100 s. -/
theorem Trigger_does_not_advance_row :
    JobManager.Trigger "k" "b" (Env.fine (50 * Second)) (Env.fine (50 * Second))
        ⟨[⟨"k", "b", 10, 100 * Second⟩], []⟩
      = (.ok ⟨"k", "b", 10 * Second, 50 * Second, false⟩,
         ⟨[⟨"k", "b", 10, 100 * Second⟩], ["job is triggered"]⟩) := by
  decide

/-- What `JobManager.Schedule` returns and what it stores.  A `Schedule` that
succeeds on a table with unique keys returns the job it built, whose next run
is `now + interval`, and leaves exactly one row of the key.  The interval of
the returned job is that of the row.  When the key was not in the table the
row has the next run of the returned job; when the key was there with
interval `I` and next run `T`, the row has next run `T + (interval - I)`
seconds, whatever the returned job says. -/
theorem Schedule_returns_built_job (path body : String) (interval : Nat) (oneOff : Bool)
    (env : Env) (m : JobManager.State)
    (hlt : interval < 2 ^ 32) (henv : env.dbErr = none) (hu : KeysUnique m.table) :
    ∃ (job : JobManager.Job) (m2 : JobManager.State) (row : Row),
      JobManager.Schedule path body interval oneOff env m = (.ok job, m2) ∧
      m2.table.filter (fun r => r.hasKey path body) = [row] ∧
      job.Interval = row.interval * Second ∧
      job.NextRun = env.now + (interval : Int) * Second ∧
      ((∀ r ∈ m.table, r.hasKey path body = false) → row.next_run = job.NextRun) ∧
      (∀ I T, (⟨path, body, I, T⟩ : Row) ∈ m.table →
        row.next_run = T + ((interval : Int) - I) * Second) := by
  have hs := Schedule_eq path body interval oneOff env m hlt henv
  by_cases hex : ∃ r0 ∈ m.table, r0.hasKey path body = true
  · obtain ⟨r0, h0, hk0⟩ := hex
    obtain ⟨rk0, b0, I, T⟩ := r0
    have hkey := (hasKey_iff _ _ _).mp hk0
    simp only at hkey
    obtain ⟨h1, h2⟩ := hkey
    subst h1 h2
    refine ⟨_, _, ⟨rk0, b0, interval, T + ((interval : Int) - I) * Second⟩, hs, ?_, rfl, rfl,
      ?_, ?_⟩
    · exact filter_upsert_of_mem m.table rk0 b0 I interval T _ hu h0
    · intro hn
      have := hn _ h0
      simp [hk0] at this
    · intro I2 T2 h2
      have he := eq_of_mem_of_hasKey m.table ⟨rk0, b0, I2, T2⟩ ⟨rk0, b0, I, T⟩ rk0 b0 hu h0 hk0 h2
        (by simp [Row.hasKey])
      injection he with _ _ hI hT
      subst hI hT
      rfl
  · have hn : ∀ r ∈ m.table, r.hasKey path body = false := by
      intro r hr
      cases hk : r.hasKey path body with
      | false => rfl
      | true => exact absurd ⟨r, hr, hk⟩ hex
    refine ⟨_, _, ⟨path, body, interval, env.now + (interval : Int) * Second⟩, hs, ?_, rfl, rfl,
      ?_, ?_⟩
    · exact filter_upsert_of_not_mem m.table path body interval _ hn
    · intro _
      rfl
    · intro I T h
      have := hn _ h
      simp [Row.hasKey] at this

/-- The statement of `Schedule_returns_built_job` at a reschedule: the key is
in the table with interval 10 s, due at 100 s, and is scheduled again with 20 s at
time 50 s. -/
theorem Schedule_returns_built_job_at_reschedule :
    ∃ (job : JobManager.Job) (m2 : JobManager.State) (row : Row),
      JobManager.Schedule "k" "b" 20 false (Env.fine (50 * Second))
        ⟨[⟨"k", "b", 10, 100 * Second⟩], []⟩ = (.ok job, m2) ∧
      m2.table.filter (fun r => r.hasKey "k" "b") = [row] ∧
      job.NextRun = 50 * Second + ((20 : Nat) : Int) * Second ∧
      row.next_run = 100 * Second + (((20 : Nat) : Int) - 10) * Second := by
  obtain ⟨job, m2, row, h1, h2, _, h4, _, h6⟩ :=
    Schedule_returns_built_job "k" "b" 20 false (Env.fine (50 * Second))
      ⟨[⟨"k", "b", 10, 100 * Second⟩], []⟩ (by decide) rfl (by decide)
  exact ⟨job, m2, row, h1, h2, h4, h6 10 (100 * Second) (by simp)⟩

/-- C3 at its failing input: the table holds a job of interval 10 s due at 100 s
and `Schedule` is called for its key with 20 s at time 50 s.  The call succeeds
and returns a job with next run 70 s, while the row stored for the key after
the call has next run 110 s: the returned job is not the stored one. -/
theorem Schedule_returns_unadjusted_nextRun :
    JobManager.Schedule "k" "b" 20 false (Env.fine (50 * Second))
        ⟨[⟨"k", "b", 10, 100 * Second⟩], []⟩
      = (.ok ⟨"k", "b", 20 * Second, 70 * Second, false⟩,
         ⟨[⟨"k", "b", 20, 110 * Second⟩], ["new job"]⟩) := by
  decide

end DalgaMain

/-! ## Uniqueness of keys -/

namespace DalgaMain

theorem Enter_NewJob_fine (rk b : String) (n : Nat) (now : Time) (t : Table) (h : n < 2 ^ 32) :
    ((NewJob rk b n now).Enter (Env.fine now) t).2
      = upsert rk b n (now + (n : Int) * Second) t := by
  have hi := NewJob_Interval rk b n now h
  have hnr : (NewJob rk b n now).NextRun = now + (n : Int) * Second := by
    have : (NewJob rk b n now).NextRun = now + (NewJob rk b n now).Interval := rfl
    rw [this, hi]
  have hrk : (NewJob rk b n now).RoutingKey = rk := rfl
  have hb : (NewJob rk b n now).Body = b := rfl
  simp only [Job.Enter, Env.fine, hi, hnr, hrk, hb, Seconds_mul_Second]

theorem KeysUnique_Op_run (t : Table) (op : Op) (hu : KeysUnique t) : KeysUnique (op.run t) := by
  cases op with
  | schedule rk b interval env =>
    simp only [Op.run, Job.Enter]
    split
    · exact hu
    · exact KeysUnique_upsert _ _ _ _ _ hu
  | trigger rk b env envInsert =>
    simp only [Op.run, JobManager.Trigger]
    split
    · exact hu
    · simp only [JobManager.tableInsert]
      split
      · split at * <;> simp_all
      · rename_i heq
        split at heq
        · simp at heq
        · simp only [JobManager.WakeUp]
          cases heq
          exact KeysUnique_upsert _ _ _ _ _ hu
  | cancel rk b env =>
    simp only [Op.run, CancelJob]
    split
    · exact hu
    · exact KeysUnique_deleteWhere _ _ _ hu
  | publish j env =>
    simp only [Op.run, Job.Publish]
    split
    · exact hu
    · split
      · exact KeysUnique_updateNextRun _ _ _ _ hu
      · exact KeysUnique_updateNextRun _ _ _ _ hu

theorem KeysUnique_foldl_Op_run (ops : List Op) : ∀ t, KeysUnique t →
    KeysUnique (ops.foldl Op.run t) := by
  induction ops with
  | nil => intro t hu; exact hu
  | cons op ops ih => intro t hu; exact ih _ (KeysUnique_Op_run t op hu)

theorem KeysUnique_scheduleAll (rk b : String) (calls : List (Nat × Time)) : ∀ t,
    KeysUnique t → KeysUnique (scheduleAll rk b calls t) := by
  induction calls with
  | nil => intro t hu; exact hu
  | cons c cs ih =>
    intro t hu
    simp only [scheduleAll, List.foldl_cons]
    apply ih
    simp only [Job.Enter, Env.fine]
    exact KeysUnique_upsert _ _ _ _ _ hu

/-- After the upsert of a key into a table with unique keys there is exactly
one row of the key, and it has the interval that was given. -/
theorem filter_upsert_unique (t : Table) (rk b : String) (i : Int) (nr : Time)
    (hu : KeysUnique t) :
    ∃ row, (upsert rk b i nr t).filter (fun r => r.hasKey rk b) = [row] ∧ row.interval = i := by
  by_cases hex : ∃ r0 ∈ t, r0.hasKey rk b = true
  · obtain ⟨r0, h0, hk0⟩ := hex
    obtain ⟨rk0, b0, I, T⟩ := r0
    have hkey := (hasKey_iff _ _ _).mp hk0
    simp only at hkey
    obtain ⟨h1, h2⟩ := hkey
    subst h1 h2
    exact ⟨_, filter_upsert_of_mem t rk0 b0 I i T nr hu h0, rfl⟩
  · have hn : ∀ r ∈ t, r.hasKey rk b = false := by
      intro r hr
      cases hk : r.hasKey rk b with
      | false => rfl
      | true => exact absurd ⟨r, hr, hk⟩ hex
    exact ⟨_, filter_upsert_of_not_mem t rk b i nr hn, rfl⟩

/-- C10 (uniqueness invariant).  Starting from the empty table, after every
finite sequence of Schedule (`Enter`), Trigger, Cancel and Publish operations,
whether or not the store fails in any of them, no two rows of the table have
the same (routing key, body).  After any further non-empty sequence of
successful Schedule calls of one key, with arbitrary uint32 intervals at
arbitrary times, exactly one row has that key and its interval is that of the
last call. -/
theorem table_keys_unique (ops : List Op) :
    KeysUnique (ops.foldl Op.run []) ∧
    ∀ (rk b : String) (init : List (Nat × Time)) (last : Nat × Time),
      (∀ c ∈ init ++ [last], c.1 < 2 ^ 32) →
      ∃ row, (scheduleAll rk b (init ++ [last]) (ops.foldl Op.run [])).filter
                (fun r => r.hasKey rk b) = [row] ∧
             row.interval = last.1 := by
  have hu0 : KeysUnique (ops.foldl Op.run []) :=
    KeysUnique_foldl_Op_run ops [] List.Pairwise.nil
  refine ⟨hu0, ?_⟩
  intro rk b init last hlt
  have hu1 := KeysUnique_scheduleAll rk b init _ hu0
  have hl : last.1 < 2 ^ 32 := hlt last (by simp)
  have e : scheduleAll rk b (init ++ [last]) (ops.foldl Op.run [])
      = upsert rk b last.1 (last.2 + (last.1 : Int) * Second)
          (scheduleAll rk b init (ops.foldl Op.run [])) := by
    simp only [scheduleAll, List.foldl_append, List.foldl_cons, List.foldl_nil]
    exact Enter_NewJob_fine rk b last.1 last.2 _ hl
  rw [e]
  exact filter_upsert_unique _ rk b _ _ hu1

/-- Witness of C10: a trigger, a cancel and a publish on one key, then Schedule
calls of 5 s and 7 s. -/
theorem table_keys_unique_witness :
    (∀ c ∈ [((5 : Nat), (0 : Time))] ++ [((7 : Nat), (1 : Time))], c.1 < 2 ^ 32) ∧
    ∃ row, (scheduleAll "k" "b" ([((5 : Nat), (0 : Time))] ++ [((7 : Nat), (1 : Time))])
              ([Op.schedule "k" "b" 3 (Env.fine 0), Op.trigger "k" "b" (Env.fine 1) (Env.fine 1),
                Op.cancel "z" "b" (Env.fine 2),
                Op.publish ⟨"k", "b", 3 * Second, 0⟩ (Env.fine 3)].foldl Op.run [])).filter
                (fun r => r.hasKey "k" "b") = [row] ∧
           row.interval = (((7 : Nat), (1 : Time)) : Nat × Time).1 :=
  ⟨by decide,
   (table_keys_unique [Op.schedule "k" "b" 3 (Env.fine 0),
      Op.trigger "k" "b" (Env.fine 1) (Env.fine 1), Op.cancel "z" "b" (Env.fine 2),
      Op.publish ⟨"k", "b", 3 * Second, 0⟩ (Env.fine 3)]).2 "k" "b" [(5, 0)] (7, 1) (by decide)⟩

end DalgaMain

/-! ## The publisher loop -/

namespace DalgaMain

theorem earliest_eq_none (t : Table) : earliest t = none ↔ t = [] := by
  cases t with
  | nil => simp [earliest]
  | cons r rs =>
    simp only [earliest]
    split
    · simp
    · split <;> simp

theorem earliest_mem_min (t : Table) : ∀ r, earliest t = some r →
    r ∈ t ∧ ∀ s ∈ t, r.next_run ≤ s.next_run := by
  induction t with
  | nil => intro r h; simp [earliest] at h
  | cons a rs ih =>
    intro r h
    simp only [earliest] at h
    split at h
    · rename_i hnone
      have hnil := (earliest_eq_none rs).mp hnone
      cases h
      subst hnil
      simp
    · rename_i m hm
      have him := ih m hm
      split at h
      · rename_i hlt
        cases h
        refine ⟨List.mem_cons_of_mem _ him.1, ?_⟩
        intro s hs
        rcases List.mem_cons.mp hs with h1 | h1
        · subst h1; exact le_of_lt hlt
        · exact him.2 s h1
      · rename_i hlt
        cases h
        refine ⟨List.mem_cons_self _ _, ?_⟩
        intro s hs
        rcases List.mem_cons.mp hs with h1 | h1
        · subst h1; exact le_refl _
        · exact le_trans (not_lt.mp hlt) (him.2 s h1)

theorem updateNextRun_no_key (nr : Time) (rk b rk2 b2 : String) (t : Table)
    (hn : ∀ r ∈ t, r.hasKey rk2 b2 = false) :
    ∀ r ∈ updateNextRun nr rk b t, r.hasKey rk2 b2 = false := by
  intro r hr
  unfold updateNextRun at hr
  obtain ⟨r0, h0, he⟩ := List.mem_map.mp hr
  have := hn r0 h0
  subst he
  split
  · simpa [Row.hasKey] using this
  · exact this

theorem upsert_no_key (rk b rk2 b2 : String) (i : Int) (nr : Time) (t : Table)
    (hne : ¬ (rk = rk2 ∧ b = b2)) (hn : ∀ r ∈ t, r.hasKey rk2 b2 = false) :
    ∀ r ∈ upsert rk b i nr t, r.hasKey rk2 b2 = false := by
  intro r hr
  cases hk : r.hasKey rk2 b2 with
  | false => rfl
  | true =>
    have hm : r ∈ (upsert rk b i nr t).filter (fun r => r.hasKey rk2 b2) :=
      List.mem_filter.mpr ⟨hr, hk⟩
    rw [filter_upsert_other t rk b rk2 b2 i nr hne] at hm
    have := hn r (List.mem_filter.mp hm).1
    rw [hk] at this
    cases this

/-- Publishing a job that is not of the key, over a table without the key,
leaves the table without the key and emits no message of the key. -/
theorem publish_keyFree (j : Job) (env : Env) (d : Dalga) (rk b : String)
    (hn : ∀ r ∈ d.db, r.hasKey rk b = false) (hj : ¬ (j.RoutingKey = rk ∧ j.Body = b)) :
    (∀ r ∈ (publish j env d).db, r.hasKey rk b = false) ∧
    ∃ new, (publish j env d).broker = d.broker ++ new ∧ ∀ m ∈ new, ¬ m.ofKey rk b := by
  unfold publish Job.Publish
  split
  · exact ⟨hn, [], by simp, by simp⟩
  · split
    · exact ⟨updateNextRun_no_key _ _ _ _ _ _ hn, [], by simp, by simp⟩
    · refine ⟨updateNextRun_no_key _ _ _ _ _ _ hn, [j.message d.exchange env.now], rfl, ?_⟩
      intro m hm
      rw [List.mem_singleton] at hm
      subst hm
      exact hj

/-- One event that does not bring the key back keeps the program free of the
key and emits no message of the key. -/
theorem next_keyFree (rk b : String) (d : Dalga) (e : Event) (hf : KeyFree rk b d)
    (he : e.bringsKey rk b = false) :
    KeyFree rk b (d.next e) ∧
    ∃ new, (d.next e).broker = d.broker ++ new ∧ ∀ m ∈ new, ¬ m.ofKey rk b := by
  obtain ⟨hdb, hpc⟩ := hf
  cases e with
  | step env =>
    simp only [Dalga.next, publisherStep]
    split
    · split
      · rename_i job hfront
        refine ⟨⟨hdb, ?_⟩, [], by simp, by simp⟩
        simp only [front] at hfront
        split at hfront
        · cases hfront
        · split at hfront
          · cases hfront
          · rename_i r hr
            cases hfront
            have hmem := (earliest_mem_min d.db r hr).1
            have := hdb r hmem
            simpa [PC.carriesKey, Row.toJob, Row.hasKey] using this
      · exact ⟨⟨hdb, by simp [PC.carriesKey]⟩, [], by simp, by simp⟩
      · exact ⟨⟨hdb, hpc⟩, [], by simp, by simp⟩
    · rename_i job hjob
      rw [hjob] at hpc
      split
      · exact ⟨⟨hdb, by simpa [PC.carriesKey] using hpc⟩, [], by simp, by simp⟩
      · have hp := publish_keyFree job env d rk b hdb (by simpa [PC.carriesKey] using hpc)
        exact ⟨⟨hp.1, by simp [PC.carriesKey]⟩, hp.2⟩
    · exact ⟨⟨hdb, hpc⟩, [], by simp, by simp⟩
    · exact ⟨⟨hdb, hpc⟩, [], by simp, by simp⟩
  | timer env =>
    simp only [Dalga.next, timeAfter]
    split
    · rename_i job hjob
      rw [hjob] at hpc
      have hp := publish_keyFree job env d rk b hdb (by simpa [PC.carriesKey] using hpc)
      exact ⟨⟨hp.1, by simp [PC.carriesKey]⟩, hp.2⟩
    · exact ⟨⟨hdb, hpc⟩, [], by simp, by simp⟩
  | enter j env =>
    simp only [Event.bringsKey, decide_eq_false_iff_not] at he
    refine ⟨⟨?_, hpc⟩, [], by simp [Dalga.next], by simp⟩
    simp only [Dalga.next, Job.Enter]
    split
    · exact hdb
    · exact upsert_no_key _ _ _ _ _ _ _ he hdb
  | newJobSignal j =>
    simp only [Event.bringsKey, decide_eq_false_iff_not] at he
    have hs := sendNewJob_db j d
    refine ⟨⟨by rw [Dalga.next, hs.1]; exact hdb, ?_⟩, [], by simp [Dalga.next, hs.2.1], by simp⟩
    simp only [Dalga.next, sendNewJob]
    split
    · simpa [PC.carriesKey] using he
    · rename_i job hjob
      rw [hjob] at hpc
      simp only [PC.carriesKey] at hpc ⊢
      split
      · exact he
      · exact hpc
    · exact hpc
  | cancelJob rk2 b2 env =>
    refine ⟨⟨?_, hpc⟩, [], by simp [Dalga.next], by simp⟩
    simp only [Dalga.next, CancelJob]
    split
    · exact hdb
    · intro r hr
      exact hdb r (List.mem_filter.mp hr).1
  | canceledSignal rk2 b2 =>
    have hs := sendCanceled_db rk2 b2 d
    refine ⟨⟨by rw [Dalga.next, hs.1]; exact hdb, ?_⟩, [], by simp [Dalga.next, hs.2.1], by simp⟩
    simp only [Dalga.next, sendCanceled]
    split
    · rename_i job hjob
      rw [hjob] at hpc
      split
      · simp [PC.carriesKey]
      · simpa [PC.carriesKey] using hpc
    · exact hpc

/-- A run that does not bring the key back emits no message of the key. -/
theorem run_keyFree (rk b : String) (es : List Event) : ∀ (d : Dalga), KeyFree rk b d →
    (∀ e ∈ es, e.bringsKey rk b = false) →
    ∃ new, (d.run es).broker = d.broker ++ new ∧ ∀ m ∈ new, ¬ m.ofKey rk b := by
  induction es with
  | nil => intro d _ _; exact ⟨[], by simp [Dalga.run], by simp⟩
  | cons e es ih =>
    intro d hf he
    obtain ⟨hf1, new1, hb1, hn1⟩ := next_keyFree rk b d e hf (he e (List.mem_cons_self _ _))
    obtain ⟨new2, hb2, hn2⟩ := ih (d.next e) hf1 (fun x hx => he x (List.mem_cons_of_mem _ hx))
    refine ⟨new1 ++ new2, ?_, ?_⟩
    · have : (d.run (e :: es)) = (d.next e).run es := rfl
      rw [this, hb2, hb1, List.append_assoc]
    · intro m hm
      rcases List.mem_append.mp hm with h | h
      · exact hn1 m h
      · exact hn2 m h

/-- The cancel signal received in the `select`.  The publisher sleeps on job
`K` and `/cancel` of the key of `K` is handled (the row is deleted, the cancel signal is sent) with the
store working.  Then the handler ends normally with its signal received, no
message is emitted, the rows of the key are gone and the loop is at its head;
its next step fetches from the table as it is then: it goes idle if the table
is empty and otherwise to the due-ness check of a remaining row of least next
run, which is not of the key of `K`.  In every run from there that does not
bring the key back (no `Enter` of it, no new-job signal carrying it) no
message of the key of `K` is ever emitted. -/
theorem cancel_while_sleeping (d : Dalga) (K : Job) (env : Env)
    (hpc : d.pc = .sleeping K) (henv : env.dbErr = none) :
    ∃ d1, handleCancel K.RoutingKey K.Body env d = (.ok, d1, true) ∧
      d1.pc = .top ∧ d1.broker = d.broker ∧
      d1.db = deleteWhere K.RoutingKey K.Body d.db ∧
      (∀ r ∈ d1.db, r.hasKey K.RoutingKey K.Body = false) ∧
      (∀ env2 : Env, env2.dbErr = none →
        (publisherStep env2 d1).broker = d.broker ∧
        ((d1.db = [] ∧ (publisherStep env2 d1).pc = .idle) ∨
         ∃ r ∈ d1.db, (∀ s ∈ d1.db, r.next_run ≤ s.next_run) ∧
           r.hasKey K.RoutingKey K.Body = false ∧
           (publisherStep env2 d1).pc = .checkNextRun r.toJob)) ∧
      (∀ es : List Event, (∀ e ∈ es, e.bringsKey K.RoutingKey K.Body = false) →
        ∃ new, (d1.run es).broker = d.broker ++ new ∧
          ∀ m ∈ new, ¬ m.ofKey K.RoutingKey K.Body) := by
  have hgone : ∀ r ∈ deleteWhere K.RoutingKey K.Body d.db,
      r.hasKey K.RoutingKey K.Body = false := by
    intro r hr
    have := (List.mem_filter.mp hr).2
    simpa using this
  refine ⟨⟨d.exchange, deleteWhere K.RoutingKey K.Body d.db, d.broker, .top⟩, ?_, rfl, rfl, rfl,
    hgone, ?_, ?_⟩
  · simp [handleCancel, CancelJob, henv, sendCanceled, hpc]
  · intro env2 henv2
    simp only [publisherStep, front, henv2]
    cases he : earliest (deleteWhere K.RoutingKey K.Body d.db) with
    | none =>
      exact ⟨rfl, Or.inl ⟨(earliest_eq_none _).mp he, rfl⟩⟩
    | some r =>
      have hm := earliest_mem_min _ r he
      exact ⟨rfl, Or.inr ⟨r, hm.1, hm.2, hgone r hm.1, rfl⟩⟩
  · intro es hes
    exact run_keyFree K.RoutingKey K.Body es _ ⟨hgone, by simp [PC.carriesKey]⟩ hes

/-- C5 at its failing input.  The table holds "k" (interval 10 s, due at 100 s)
and the publisher begins to sleep on it.  At 1 s another job "j", due at 501 s,
is scheduled; its new-job signal wakes the publisher, which keeps "k" and
stands at `CheckNextRun`.  At 2 s `/cancel` of "k" is handled: the row is
deleted, the handler ends normally, but its non-blocking send finds no
receiver and the cancel signal is not sent.  The publisher sleeps on the
carried "k" again without a query, and when the timer fires at 100 s it
publishes "k", whose row is gone from the table. -/
theorem cancelled_job_is_published :
    ((Dalga.start "ex" [⟨"k", "b", 10, 100 * Second⟩]).run
        [.step (Env.fine 0), .step (Env.fine 0)]).pc
      = .sleeping ⟨"k", "b", 10 * Second, 100 * Second⟩ ∧
    (Dalga.start "ex" [⟨"k", "b", 10, 100 * Second⟩]).run
        [.step (Env.fine 0), .step (Env.fine 0),
         .enter (NewJob "j" "b" 500 (1 * Second)) (Env.fine (1 * Second)),
         .newJobSignal (NewJob "j" "b" 500 (1 * Second))]
      = ⟨"ex", [⟨"k", "b", 10, 100 * Second⟩, ⟨"j", "b", 500, 501 * Second⟩], [],
         .checkNextRun ⟨"k", "b", 10 * Second, 100 * Second⟩⟩ ∧
    handleCancel "k" "b" (Env.fine (2 * Second))
        ⟨"ex", [⟨"k", "b", 10, 100 * Second⟩, ⟨"j", "b", 500, 501 * Second⟩], [],
         .checkNextRun ⟨"k", "b", 10 * Second, 100 * Second⟩⟩
      = (.ok, ⟨"ex", [⟨"j", "b", 500, 501 * Second⟩], [],
               .checkNextRun ⟨"k", "b", 10 * Second, 100 * Second⟩⟩, false) ∧
    (⟨"ex", [⟨"j", "b", 500, 501 * Second⟩], [],
       .checkNextRun ⟨"k", "b", 10 * Second, 100 * Second⟩⟩ : Dalga).run
        [.step (Env.fine (2 * Second)), .timer (Env.fine (100 * Second))]
      = ⟨"ex", [⟨"j", "b", 500, 501 * Second⟩],
         [⟨"ex", "k", 10, 100 * Second, "text/plain", "UTF-8", "b", 2, 0, "10000"⟩], .top⟩ ∧
    (Dalga.start "ex" [⟨"k", "b", 10, 100 * Second⟩]).run
        [.step (Env.fine 0), .step (Env.fine 0),
         .enter (NewJob "j" "b" 500 (1 * Second)) (Env.fine (1 * Second)),
         .newJobSignal (NewJob "j" "b" 500 (1 * Second)),
         .cancelJob "k" "b" (Env.fine (2 * Second)), .canceledSignal "k" "b",
         .step (Env.fine (2 * Second)), .timer (Env.fine (100 * Second))]
      = ⟨"ex", [⟨"j", "b", 500, 501 * Second⟩],
         [⟨"ex", "k", 10, 100 * Second, "text/plain", "UTF-8", "b", 2, 0, "10000"⟩], .top⟩ := by
  decide

/-- What the loop does after a wakeup.  From the receive on
`d.newJobs` (Idle) the loop goes to the due-ness check of the job received
with the signal.  From the `select` (Waiting): when the timer fires it
publishes the job it slept on and then is at its head, where the next job
comes from a query; a new-job signal takes it to the due-ness check of the
received job if that one runs earlier, and of the job it slept on otherwise,
without a query; a cancel signal for the key of the job slept on takes it to
its head, with nothing published, and a cancel signal for another key back to
the due-ness check of the job slept on.  At its head the loop queries: with
the store working it goes idle on an empty table and otherwise checks the
earliest row. -/
theorem wakeup_transitions (d : Dalga) (job : Job) :
    (d.pc = .idle → ∀ nj, sendNewJob nj d = ({ d with pc := .checkNextRun nj }, true)) ∧
    (d.pc = .sleeping job →
      (∀ env : Env, (timeAfter env d).pc = .top ∧
        (env.dbErr = none → env.brokerErr = none →
          (timeAfter env d).broker = d.broker ++ [job.message d.exchange env.now])) ∧
      (∀ nj, sendNewJob nj d
        = ({ d with pc := .checkNextRun (if nj.NextRun < job.NextRun then nj else job) }, true)) ∧
      (∀ rk b, (job.RoutingKey = rk ∧ job.Body = b) →
        sendCanceled rk b d = ({ d with pc := .top }, true)) ∧
      (∀ rk b, ¬ (job.RoutingKey = rk ∧ job.Body = b) →
        sendCanceled rk b d = ({ d with pc := .checkNextRun job }, true))) ∧
    (d.pc = .top → ∀ env : Env, env.dbErr = none →
      (publisherStep env d).db = d.db ∧ (publisherStep env d).broker = d.broker ∧
      ((d.db = [] ∧ (publisherStep env d).pc = .idle) ∨
       ∃ r ∈ d.db, (∀ s ∈ d.db, r.next_run ≤ s.next_run) ∧
         (publisherStep env d).pc = .checkNextRun r.toJob)) := by
  refine ⟨?_, ?_, ?_⟩
  · intro h nj
    simp [sendNewJob, h]
  · intro h
    refine ⟨?_, ?_, ?_, ?_⟩
    · intro env
      refine ⟨by simp [timeAfter, h], ?_⟩
      intro h1 h2
      simp [timeAfter, h, publish, Job.Publish, h1, h2]
    · intro nj
      simp [sendNewJob, h]
    · intro rk b hk
      simp [sendCanceled, h, hk]
    · intro rk b hk
      simp [sendCanceled, h, hk]
  · intro h env henv
    simp only [publisherStep, h, front, henv]
    cases he : earliest d.db with
    | none => exact ⟨rfl, rfl, Or.inl ⟨(earliest_eq_none _).mp he, rfl⟩⟩
    | some r =>
      have hm := earliest_mem_min _ r he
      exact ⟨rfl, rfl, Or.inr ⟨r, hm.1, hm.2, rfl⟩⟩

/-- C4 at its failing input.  The table holds "k" with interval 10 s, due at
100 s, and the publisher sleeps on it.  At 5 s the job is rescheduled to 110 s:
the row becomes interval 110, due at 200 s, and the new-job signal carries a
job due at 115 s.  The loop keeps the job it slept on, without a query, sleeps
on it again, and when the timer fires at 100 s it publishes that carried job
(expiration "10000") and sets the next run of the row to 110 s, although the
earliest-job query on the table at that moment returns the job with interval
110 s that is due at 200 s. -/
theorem publisher_acts_on_carried_job :
    ((Dalga.start "ex" [⟨"k", "b", 10, 100 * Second⟩]).run
        [.step (Env.fine 0), .step (Env.fine 0),
         .enter (NewJob "k" "b" 110 (5 * Second)) (Env.fine (5 * Second)),
         .newJobSignal (NewJob "k" "b" 110 (5 * Second)),
         .step (Env.fine (5 * Second))])
      = ⟨"ex", [⟨"k", "b", 110, 200 * Second⟩], [],
         .sleeping ⟨"k", "b", 10 * Second, 100 * Second⟩⟩ ∧
    front (Env.fine (100 * Second)) [⟨"k", "b", 110, 200 * Second⟩]
      = .ok ⟨"k", "b", 110 * Second, 200 * Second⟩ ∧
    timeAfter (Env.fine (100 * Second))
        ⟨"ex", [⟨"k", "b", 110, 200 * Second⟩], [],
         .sleeping ⟨"k", "b", 10 * Second, 100 * Second⟩⟩
      = ⟨"ex", [⟨"k", "b", 110, 110 * Second⟩],
         [⟨"ex", "k", 10, 100 * Second, "text/plain", "UTF-8", "b", 2, 0, "10000"⟩], .top⟩ := by
  decide

end DalgaMain
